import Mathlib

/-!
Verification development for the nisupply repository (file discovery and
metadata extraction for neuroimaging datasets).

Python strings are modelled as lists of characters (`Str`), filesystem trees
as an inductive type, and each Python function of the repository is translated
into an executable Lean definition that mirrors its control flow.  Machinery
from the Python standard library (`os.walk`, `str.endswith`, `zip`, `dict`,
pandas index alignment, ...) is modelled explicitly where the repository's
behaviour depends on it; the `re` regex engine is an external collaborator and
is abstracted as a search function.
-/

/-- Python strings are sequences of characters. -/
abbrev Str := List Char

/-- Convert a Lean string literal to the `Str` model. -/
def sl (s : String) : Str := s.toList

/-- Model of Python `str.lower` (character-wise lowercasing). -/
def strLower (s : Str) : Str := s.map Char.toLower

/-- Model of Python `sub in s` for strings: contiguous-substring containment. -/
def isSubOf (a : Str) : Str → Bool
  | [] => a.isPrefixOf []
  | c :: t => a.isPrefixOf (c :: t) || isSubOf a t

/-- Model of `os.path.join` over already-split path components, using the
POSIX separator. -/
def joinPath (comps : List Str) : Str := (comps.intersperse (sl "/")).flatten

/-- Path segments of a rendered path (splitting on the separator). -/
def pathSegments (p : Str) : List Str := List.splitOn '/' p

/-- Filesystem tree: a directory with named subdirectories and file names,
in platform traversal order.  `os.walk` yields the files of a directory
first and then recurses into each (non-pruned) subdirectory in order. -/
inductive FSTree where
  | node (dirs : List (Str × FSTree)) (files : List Str)

/-- Value of the `exclude_dirs` parameter of `find_files`: the Python code
accepts either a single string or a list of directory names. -/
inductive ExcludeDirs where
  | str (s : Str)
  | list (l : List Str)

/-- Python truthiness of the `exclude_dirs` argument (`if exclude_dirs:`):
`None`, the empty string and the empty list are falsy. -/
def excludeTruthy : Option ExcludeDirs → Bool
  | none => false
  | some (.str s) => !s.isEmpty
  | some (.list l) => !l.isEmpty

/-- Model of Python `d not in exclude_dirs` (negated): substring membership
when `exclude_dirs` is a string, list membership when it is a list. -/
def dirExcluded (d : Str) : ExcludeDirs → Bool
  | .str s => isSubOf d s
  | .list l => l.contains d

/-- Directory-pruning predicate of `find_files`
(`dirs[:] = [d for d in dirs if d not in exclude_dirs]`, guarded by
`if exclude_dirs:`). -/
def keepDir (ex : Option ExcludeDirs) (d : Str) : Bool :=
  match ex with
  | none => true
  | some e => if excludeTruthy (some e) then !dirExcluded d e else true

mutual
/-- Model of the `os.walk` loop of `find_files` with in-place pruning of
`dirs`: yields `(components below the root, filename)` for every visited
file, in traversal order.  Pruned directories are never recursed into. -/
def walkTree (ex : Option ExcludeDirs) : FSTree → List (List Str × Str)
  | .node dirs files =>
      files.map (fun f => (([] : List Str), f)) ++ walkDirs ex dirs
/-- Recursion of `walkTree` over the subdirectory list; a subdirectory
removed by the pruning (`d not in exclude_dirs` filter) contributes
nothing, so its contents are never visited. -/
def walkDirs (ex : Option ExcludeDirs) : List (Str × FSTree) → List (List Str × Str)
  | [] => []
  | (d, t) :: rest =>
      (if keepDir ex d then (walkTree ex t).map (fun e => (d :: e.1, e.2)) else [])
        ++ walkDirs ex rest
end

/-- Keyword arguments of `find_files` (io.py).  A single suffix/contain
string in Python is the one-element case of the tuple/list form, which is
what `str.endswith`/`str.startswith` accept and what the
`isinstance(..., str)` wrapping produces for the contain filters. -/
structure FindSpec where
  fileSuffixes : Option (List Str) := none
  filePrefixes : Option (List Str) := none
  exclude_dirs : Option ExcludeDirs := none
  must_contain_all : Option (List Str) := none
  must_contain_any : Option (List Str) := none
  case_sensitive : Bool := true

/-- Python truthiness of an optional string collection
(`if file_suffix:` and friends): `None` and empty collections are falsy. -/
def optTruthy : Option (List Str) → Bool
  | none => false
  | some l => !l.isEmpty

/-- Guard chain of the `find_files` loop body (io.py lines 87-99), applied
to the joined filepath and the (possibly lowercased) candidate file name:
suffix/prefix guards check the candidate, the contain guards check the full
path, and the predicate strings are used verbatim.  Returns the appended
filepath when the file survives every filter. -/
def fileKeepC (spec : FindSpec) (filepath cand : Str) : Option Str :=
  if optTruthy spec.fileSuffixes
      && !((spec.fileSuffixes.getD []).any (fun s => s.isSuffixOf cand)) then none
  else if optTruthy spec.filePrefixes
      && !((spec.filePrefixes.getD []).any (fun s => s.isPrefixOf cand)) then none
  else if optTruthy spec.must_contain_all
      && !((spec.must_contain_all.getD []).all (fun e => isSubOf e filepath)) then none
  else if optTruthy spec.must_contain_any
      && !((spec.must_contain_any.getD []).any (fun e => isSubOf e filepath)) then none
  else some filepath

/-- Loop body of `find_files` for one file: `filepath = os.path.join(paths,
file)` is computed from the original name, then only the candidate file
name is lowercased in case-insensitive mode before the guards run. -/
def fileKeep (spec : FindSpec) (fullDir : List Str) (file : Str) : Option Str :=
  fileKeepC spec (joinPath (fullDir ++ [file]))
    (if spec.case_sensitive then file else strLower file)

/-- Model of `find_files` (io.py): walk the tree rooted at `root` (given as
its normalized path components), prune excluded directories, and keep the
files that pass the suffix/prefix/contain filters, in traversal order.
The existence check on `src_dir` is satisfied by construction (the tree is
the directory), and the zero-match warning is non-fatal. -/
def find_files (root : List Str) (t : FSTree) (spec : FindSpec) : List Str :=
  (walkTree spec.exclude_dirs t).filterMap (fun e => fileKeep spec (root ++ e.1) e.2)

/-- Cell value in a filepath table: an extracted string or the absent-value
marker `np.nan`. -/
inductive Value where
  | str (s : Str)
  | nan
deriving DecidableEq, Repr

/-- Result type of an abstract regex search: the list of group texts of the
first match, with index 0 the whole match (`match.group(0)`), index `i > 0`
the `i`-th capture group.  Python's `re` engine is an external collaborator,
so `re.search` is a parameter `search : pattern → string → Option MatchRes`. -/
abbrev MatchRes := List Str

/-- Model of `regex_extract` (io.py lines 107-131): search the pattern
anywhere in the filepath; on a match return the requested group
(`match.group(re_group)` raises `IndexError` — modelled as `.error` — when
the group index is invalid), otherwise return `np.nan` without raising. -/
def regex_extract (search : Str → Str → Option MatchRes) (filepath pattern : Str)
    (re_group : Nat) : Except Unit Value :=
  match search pattern filepath with
  | some m =>
      match m.get? re_group with
      | some g => .ok (.str g)
      | none => .error ()
  | none => .ok .nan

/-- Literal-substring search engine: a concrete instance of the abstract
`re.search` parameter used to evaluate the model on closed inputs (the
pattern is taken as a literal, the whole match is the only group). -/
def searchLit (pattern s : Str) : Option MatchRes :=
  if isSubOf pattern s then some [pattern] else none

/-- Value of the `src_dir` parameter of `get_filepath_df` (io.py): a single
directory or a list-like of directories.  Each directory is given as its
normalized path components together with the tree that the ambient
filesystem holds at that path. -/
inductive SrcArg where
  | one (root : List Str) (t : FSTree)
  | many (ds : List ((List Str) × FSTree))

/-- Insert into a Python dict modelled as an association list: an existing
key is updated in place (dicts keep insertion order), a new key is
appended.  Used to model `dict(zip(subject_ids, files))`. -/
def dictInsert (k : Str) (v : List Str) : List (Str × List Str) → List (Str × List Str)
  | [] => [(k, v)]
  | (k', v') :: rest => if k' = k then (k, v) :: rest else (k', v') :: dictInsert k v rest

/-- Model of `dict(zip(subject_ids, files))`: `zip` truncates to the shorter
of the two lists (no error on a length mismatch). -/
def dictZip (ids : List Str) (files : List (List Str)) : List (Str × List Str) :=
  (ids.zip files).foldl (fun m kv => dictInsert kv.1 kv.2 m) []

/-- Model of `get_filepath_df` (io.py lines 139-209).  The result is the
pair (does the table have a subject-id column, rows as id-value × filepath).
In explicit-mapping mode (list-like `src_dir` with `subject_ids`) the code
builds `dict(zip(subject_ids, files))`: a length mismatch silently drops the
unpaired directories or identifiers — no `ValueError` is raised (the FIXME
at io.py lines 133-137 records the missing sanity check). -/
def get_filepath_df (src : SrcArg) (subject_ids : Option (List Str))
    (extract_id : Bool) (search : Str → Str → Option MatchRes)
    (id_pattern : Str) (re_group : Nat) (spec : FindSpec) :
    Except Unit (Bool × List (Value × Str)) :=
  match src with
  | .one root t =>
      let files := find_files root t spec
      if extract_id then do
        let rows ← files.mapM (fun f => do
          let v ← regex_extract search f id_pattern re_group
          pure (v, f))
        pure (true, rows)
      else
        pure (false, files.map (fun f => (Value.nan, f)))
  | .many ds =>
      let files := ds.map (fun d => find_files d.1 d.2 spec)
      if extract_id then do
        let flat := files.flatten
        let rows ← flat.mapM (fun f => do
          let v ← regex_extract search f id_pattern re_group
          pure (v, f))
        pure (true, rows)
      else if optTruthy subject_ids then
        let m := dictZip (subject_ids.getD []) files
        pure (true, m.flatMap (fun kv => kv.2.map (fun f => (Value.str kv.1, f))))
      else
        pure (false, files.flatten.map (fun f => (Value.nan, f)))

/-- Model of the explicit-mapping branch of the earlier `get_filepath_df`
(nisupply.py lines 217-230): with list-like `src_dirs` and `participant_ids`
supplied, a length mismatch raises
`ValueError('Participant IDs and source directories must be of the same length')`;
otherwise each directory's files are attributed to its paired identifier. -/
def get_filepath_df_v0_explicit (participant_ids : List Str)
    (src_dirs : List ((List Str) × FSTree)) (spec : FindSpec) :
    Except String (List (Str × Str)) :=
  if participant_ids.length ≠ src_dirs.length then
    .error "Participant IDs and source directories must be of the same length"
  else
    .ok ((participant_ids.zip src_dirs).flatMap
      (fun p => (find_files p.2.1 p.2.2 spec).map (fun f => (p.1, f))))

/-- Default BIDS entity mapping `BIDS_ENTITY_REGEX_DICT` (bids.py lines
14-17): entity name, regex pattern, capture-group index. -/
def BIDS_ENTITY_REGEX_DICT : List (Str × Str × Nat) :=
  [ (sl "session", sl "(_ses-)(\\d+)", 2)
  , (sl "run", sl "(_run-)(\\d+)", 2)
  , (sl "data_type", sl "func|dwi|fmap|anat|meg|eeg|ieeg|beh", 0)
  , (sl "echo", sl "(_echo-)(\\d+)", 2) ]

/-- Filepath table used by `add_bids_info`: a `filepath` column plus the
extraction columns added so far (each aligned with the filepaths). -/
structure BidsDf where
  filepaths : List Str
  extra : List (Str × List Value)
deriving DecidableEq, Repr

/-- Column names of a `BidsDf`, `filepath` first. -/
def BidsDf.colNames (df : BidsDf) : List Str :=
  sl "filepath" :: df.extra.map (·.1)

/-- Model of `add_bids_info` (bids.py lines 31-58).  Mirrors the source
faithfully: `regex_dict` is defaulted when falsy (None or the empty dict),
but the loop iterates `BIDS_ENTITY_REGEX_DICT.items()` — not `regex_dict` —
so the caller's mapping is never consulted when adding columns. -/
def add_bids_info (search : Str → Str → Option MatchRes) (df : BidsDf)
    (regex_dict : Option (List (Str × Str × Nat))) : Except Unit BidsDf :=
  let rd := match regex_dict with
    | some d => if d.isEmpty then BIDS_ENTITY_REGEX_DICT else d
    | none => BIDS_ENTITY_REGEX_DICT
  let _ := rd
  BIDS_ENTITY_REGEX_DICT.foldlM (fun acc ent => do
    let col ← acc.filepaths.mapM (fun fp => regex_extract search fp ent.2.1 ent.2.2)
    pure { acc with extra := acc.extra ++ [(ent.1, col)] }) df

/-- Lexicographic boolean comparison of modelled Python strings
(code-point order, the order `sort_values` uses on string columns). -/
def strLeB : Str → Str → Bool
  | [], _ => true
  | _ :: _, [] => false
  | a :: as, b :: bs => if a < b then true else if b < a then false else strLeB as bs

/-- Strict lexicographic comparison. -/
def strLtB (a b : Str) : Bool := strLeB a b && !(a == b)

/-- Row of the table consumed by `get_timepoint`: the two columns the
function touches (`participant_id`, `session_label`). -/
structure TRow where
  pid : Str
  sess : Str
deriving DecidableEq, Repr

/-- Sort key of the `sort_values(['participant_id','session_label'])` call. -/
def tkey (r : TRow) : Str × Str := (r.pid, r.sess)

/-- Tuple comparison on sort keys: participant id first, then session
label (Python's lexicographic tuple/string order). -/
def keyLe (a b : Str × Str) : Bool :=
  strLtB a.1 b.1 || (a.1 == b.1 && strLeB a.2 b.2)

/-- Row comparison used by the sort. -/
def rowle (a b : TRow) : Prop := keyLe (tkey a) (tkey b) = true

instance : DecidableRel rowle := fun a b => instDecidableEqBool (keyLe (tkey a) (tkey b)) true

/-- Comparison on index-carrying rows (the pandas sort compares values only;
the index tags along, and the sort is modelled as stable). -/
def erowle (a b : Nat × TRow) : Prop := rowle a.2 b.2

instance : DecidableRel erowle := fun a b => instDecidableEqBool (keyLe (tkey a.2) (tkey b.2)) true

/-- Model of `drop_duplicates(['participant_id','session_label'])` on the
sorted, index-carrying rows: keep the first occurrence of each key. -/
def dropDupFirst : List (Nat × TRow) → List (Str × Str) → List (Nat × TRow)
  | [], _ => []
  | x :: xs, seen =>
      if tkey x.2 ∈ seen then dropDupFirst xs seen
      else x :: dropDupFirst xs (tkey x.2 :: seen)

/-- Model of `groupby('participant_id').cumcount()`: each row is tagged with
the number of earlier rows (in frame order) sharing its participant id. -/
def cumc : List (Nat × TRow) → (Str → Nat) → List (Nat × Nat)
  | [], _ => []
  | (i, r) :: rest, cnt =>
      (i, cnt r.pid) :: cumc rest (fun p => if p = r.pid then cnt r.pid + 1 else cnt p)

/-- Index alignment of the timepoint-column assignment: the counted series
is joined back on the original integer index; unmatched rows get NaN. -/
def lookupT : List (Nat × Nat) → Nat → Option Nat
  | [], _ => none
  | (i, t) :: rest, j => if j = i then some t else lookupT rest j

/-- Model of the forward fill over the aligned `t` column in original row
order: a missing value is replaced by the most recent present one. -/
def ffillGo (assign : Nat → Option Nat) : Nat → Nat → Option Nat → List (Option Nat)
  | 0, _, _ => []
  | n + 1, j, last =>
      let v := match assign j with
        | some t => some t
        | none => last
      v :: ffillGo assign n (j + 1) v

/-- Model of `get_timepoint` (bids.py lines 21-29, identical in nisupply.py):
sort by (participant, session) — modelled as a stable sort — drop duplicate
pairs, cumcount per participant, align back on the original index, forward
fill, and convert to int.  `astype(int)` fails on a remaining NaN, modelled
as `none`. -/
def get_timepoint (l : List TRow) : Option (List Nat) :=
  let s := List.insertionSort erowle l.enum
  let d := dropDupFirst s []
  let c := cumc d (fun _ => 0)
  let ts := ffillGo (lookupT c) l.length 0 none
  if ts.all (·.isSome) then some (ts.map (fun o => o.getD 0)) else none

/-- Closed form of the timepoint a row receives when the input table is
already sorted: the number of distinct earlier (participant, session) keys
with the same participant and a strictly smaller session label. -/
def priorCount (l : List TRow) (r : TRow) : Nat :=
  (((l.map tkey).filter (fun k => k.1 == r.pid && strLtB k.2 r.sess)).dedup).length

/-- Scanner for the lazy regex used by `extract_entities` (structure.py
lines 19-27): for each opening brace, the (possibly empty) run of characters
up to the next closing brace is one match's capture; an unclosed trailing
brace yields no further match.  `acc = some a` means a brace is open with
`a` the characters read so far (reversed). -/
def bracedGo : Str → Option Str → List Str
  | [], _ => []
  | c :: t, none => if c = '\x7b' then bracedGo t (some []) else bracedGo t none
  | c :: t, some a => if c = '\x7d' then a.reverse :: bracedGo t none else bracedGo t (some (c :: a))

/-- Model of `extract_entities` (structure.py lines 19-27): the placeholder
names found in each recipe string, concatenated in order. -/
def extract_entities (recipe : List Str) : List Str :=
  recipe.flatMap (fun s => bracedGo s none)

/-- Table consumed by `get_bids_structure`: frame-level column names and the
rows (each row's cells aligned positionally with the columns). -/
structure Frame where
  cols : List Str
  rows : List (List Str)
deriving DecidableEq, Repr

/-- Cell lookup in a row by column name (`row.to_dict()[name]`). -/
def Frame.cell (df : Frame) (row : List Str) (c : Str) : Option Str :=
  (df.cols.indexOf? c).bind (fun i => row.get? i)


/-- Substitution engine of the `format` call in `get_bids_structure`: scan
the template; a brace-delimited placeholder is replaced by `lookup name`
(`none` models the `KeyError`/format failure, which cannot occur for the
placeholders pre-selected by the column selection).  `acc = some a` means a
placeholder is open with `a` the name characters so far (reversed). -/
def renderGo (lookup : Str → Option Str) : Str → Option Str → Option Str
  | [], none => some []
  | [], some _ => none
  | c :: t, none =>
      if c = '\x7b' then renderGo lookup t (some [])
      else (renderGo lookup t none).map (c :: ·)
  | c :: t, some a =>
      if c = '\x7d' then
        match lookup a.reverse with
        | some v => (renderGo lookup t none).map (v ++ ·)
        | none => none
      else renderGo lookup t (some (c :: a))

/-- Error taxonomy of the path rendering: pandas raises `KeyError` (the
spec's `MissingColumnError`) when the column selection names an absent
column; `renderFail` covers a failure inside `format` itself. -/
inductive RenderErr where
  | missingColumn (c : Str)
  | renderFail
deriving DecidableEq, Repr

/-- Model of `get_bids_structure` (structure.py lines 29-80): extract the
placeholders of both recipes, join the recipes into templates (slash for
the directory part, underscore for the filename part), select the entity
columns — which raises `KeyError` on the first placeholder that is not a
table column — render both templates per row, and build `bids_dst` by
joining `dst_dir`, `bids_dir` and `bids_file` and appending a dot and the
row's `file_suffix` value. -/
def get_bids_structure (df : Frame) (bids_recipe_dir bids_recipe_file : List Str)
    (dst_dir : Str) : Except RenderErr Frame :=
  let entities_dir := extract_entities bids_recipe_dir
  let entities_file := extract_entities bids_recipe_file
  let bids_template_dir := List.intercalate (sl "/") bids_recipe_dir
  let bids_template_file := List.intercalate (sl "_") bids_recipe_file
  match entities_dir.find? (fun e => !df.cols.contains e) with
  | some e => .error (.missingColumn e)
  | none =>
  match entities_file.find? (fun e => !df.cols.contains e) with
  | some e => .error (.missingColumn e)
  | none =>
  match df.rows.mapM (fun row => renderGo (df.cell row) bids_template_dir none) with
  | none => .error .renderFail
  | some dirCol =>
  match df.rows.mapM (fun row => renderGo (df.cell row) bids_template_file none) with
  | none => .error .renderFail
  | some fileCol =>
  if !df.cols.contains (sl "file_suffix") then .error (.missingColumn (sl "file_suffix"))
  else
    match (df.rows.zip (dirCol.zip fileCol)).mapM (fun rz =>
        (df.cell rz.1 (sl "file_suffix")).map (fun fs =>
          joinPath [dst_dir, rz.2.1, rz.2.2] ++ '.' :: fs)) with
    | none => .error .renderFail
    | some dstCol =>
      .ok { cols := df.cols ++ [sl "bids_dir", sl "bids_file", sl "bids_dst"]
          , rows := (df.rows.zip ((dirCol.zip fileCol).zip dstCol)).map
              (fun rz => rz.1 ++ [rz.2.1.1, rz.2.1.2, rz.2.2]) }

/-- Split a character list on a separator character (model of `str.split`).
Always returns at least one (possibly empty) piece. -/
def splitOnC (c : Char) : Str → List Str
  | [] => [[]]
  | h :: t =>
      match splitOnC c t with
      | [] => if h = c then [[], []] else [[h]]
      | r :: rs => if h = c then [] :: r :: rs else (h :: r) :: rs

/-- Model of `os.path.basename` for slash-separated paths: the part after
the last separator. -/
def basename (p : Str) : Str := (splitOnC '/' p).getLastD []

/-- Model of `pathlib.Path(f).suffixes`: the dot-extensions of the file
name.  A name ending in a dot has no suffixes; leading dots (hidden files)
do not start a suffix. -/
def suffixesOf (p : Str) : List Str :=
  let nm := basename p
  if nm.getLast? = some '.' then []
  else
    let nm := nm.dropWhile (· = '.')
    ((splitOnC '.' nm).drop 1).map (fun s => '.' :: s)

/-- Model of Python `s.replace(pat, rep)`: replace every non-overlapping
occurrence of `pat`, scanning left to right.  The empty pattern is returned
unchanged (the repository only replaces dot-led extension strings, which
are never empty). -/
def replaceAll : Str → Str → Str → Str
  | s, [], _ => s
  | [], _, _ => []
  | h :: t, p :: ps, rep =>
      if (p :: ps).isPrefixOf (h :: t) then
        rep ++ replaceAll ((h :: t).drop (p :: ps).length) (p :: ps) rep
      else
        h :: replaceAll t (p :: ps) rep
termination_by s _ _ => s.length
decreasing_by
  · simp only [List.length_drop, List.length_cons]
    omega
  · simp [List.length_cons]

/-- Outcome of `uncompress_files`: the list the loop accumulates
(`filepath_list_uncompressed`), the `(source, target)` pairs actually
decompressed (the gzip side effects), and the function's Python return
value. -/
structure UncompressOut where
  collected : List Str
  actions : List (Str × Str)
  ret : Option (List Str)
deriving DecidableEq, Repr

/-- Per-file target path of `uncompress_files`: the compression extension
is stripped via `str.replace` of both extensions by the first, and an
optional destination directory replaces the source directory. -/
def uncompressTarget (dst_dir : Option Str) (f : Str) (file_extension : Str) : Str :=
  let both_extensions := (suffixesOf f).flatten
  let fu := replaceAll f both_extensions file_extension
  match dst_dir with
  | some d => joinPath [d, basename fu]
  | none => fu

/-- Loop of `uncompress_files` over the remaining files, carrying the
accumulated `filepath_list_uncompressed` and the decompression actions
performed so far; ends in the bare `return`, i.e. `ret := none`. -/
def uncompressGo (pathExists : Str → Bool) (dst_dir : Option Str) :
    List Str → List Str → List (Str × Str) → Except Unit UncompressOut
  | [], collected, actions => .ok { collected := collected, actions := actions, ret := none }
  | f :: rest, collected, actions =>
    match (suffixesOf f).head? with
    | none => .error ()
    | some file_extension =>
      let fu := uncompressTarget dst_dir f file_extension
      uncompressGo pathExists dst_dir rest (collected ++ [fu])
        (if !(pathExists fu) then actions ++ [(f, fu)] else actions)

/-- Model of `uncompress_files` (utils.py lines 15-67, identical in
nisupply.py lines 235-287).  Per file: `pathlib` suffixes are read —
`file_extensions[0]` raises `IndexError` (modelled `.error`) when the file
has no extension — then the uncompressed target is computed, existing
targets are skipped as gzip actions, and the target is appended to the
accumulated list.  The final statement is a bare `return`: the accumulated
list is built but the function returns `None`. -/
def uncompress_files (pathExists : Str → Bool) (filepath_list : List Str)
    (dst_dir : Option Str) : Except Unit UncompressOut :=
  uncompressGo pathExists dst_dir filepath_list [] []

mutual
/-- Lowercased copy of a filesystem tree ("the same inputs lower-cased"
of the case-sensitivity comparison): directory and file names mapped
through `str.lower`. -/
def lowerTree : FSTree → FSTree
  | .node dirs files => .node (lowerDirs dirs) (files.map strLower)
/-- Recursion of `lowerTree` over the subdirectory list. -/
def lowerDirs : List (Str × FSTree) → List (Str × FSTree)
  | [] => []
  | (d, t) :: rest => (strLower d, lowerTree t) :: lowerDirs rest
end

/-- Fixture: one-file source directories for the length-mismatch scenario. -/
def exD1 : (List Str) × FSTree := ([sl "p1"], .node [] [sl "f1.nii"])

/-- Fixture: second source directory. -/
def exD2 : (List Str) × FSTree := ([sl "p2"], .node [] [sl "f2.nii"])

/-- Fixture: third source directory (the one silently dropped). -/
def exD3 : (List Str) × FSTree := ([sl "p3"], .node [] [sl "f3.nii"])

/-- Fixture: a table with one filepath and no extraction columns. -/
def exBidsDf : BidsDf := { filepaths := [sl "sub-01_ses-01.nii"], extra := [] }

/-- Fixture: a directory containing lower- and upper-case `.nii` files. -/
def exTreeCase : FSTree := .node [(sl "sub-01", .node [] [sl "a.nii", sl "A.NII"])] []

/-- Fixture: a single lower-case file for the superset comparison. -/
def exTreeC5 : FSTree := .node [] [sl "a.nii"]

/-- Fixture: a directory whose only file bears an excluded directory name. -/
def exTreeC6 : FSTree := .node [] [sl "data"]

/-- Fixture: a tree with one kept directory and one excluded directory. -/
def exTreeC6w : FSTree :=
  .node [(sl "keep", .node [] [sl "x.nii"]), (sl "skip", .node [] [sl "y.nii"])] []

/-- Fixture for C9: directory `b` is a strict substring of the exclude
string `abc` (so it is pruned); directory `zz` is not. -/
def exTreeC9 : FSTree :=
  .node [(sl "b", .node [] [sl "hidden.nii"]), (sl "zz", .node [] [sl "x.nii"])] []

/-- Fixture: the Scenario D table (columns `dst`, `id`, `ext`,
`file_suffix`; no `task` column). -/
def exFrameD : Frame :=
  { cols := [sl "dst", sl "id", sl "ext", sl "file_suffix"]
  , rows := [[sl "out", sl "01", sl ".nii", sl "nii"]] }

/-- Accumulated seen-set of `dropDupFirst` over a processed prefix. -/
def seenAcc : List (Nat × TRow) → List (Str × Str) → List (Str × Str)
  | [], seen => seen
  | x :: xs, seen =>
      if tkey x.2 ∈ seen then seenAcc xs seen else seenAcc xs (tkey x.2 :: seen)

/-- Accumulated per-participant counter of `cumc` over a processed prefix. -/
def cntAcc : List (Nat × TRow) → (Str → Nat) → (Str → Nat)
  | [], cnt => cnt
  | (_, r) :: rest, cnt =>
      cntAcc rest (fun p => if p = r.pid then cnt r.pid + 1 else cnt p)

/-- C1: with identifier list `["A","B"]` and three source directories, the
current Filepath Table Builder (`get_filepath_df`, io.py) returns a table
covering only the first two directories — `dict(zip(...))` silently drops
the third — while the earlier builder (nisupply.py) raises the
length-mismatch `ValueError` the spec describes. -/
theorem claim_C1_zip_truncates :
    get_filepath_df (.many [exD1, exD2, exD3]) (some [sl "A", sl "B"]) false searchLit
        (sl "x") 0 {} =
      .ok (true, [(Value.str (sl "A"), sl "p1/f1.nii"), (Value.str (sl "B"), sl "p2/f2.nii")])
    ∧ get_filepath_df_v0_explicit [sl "A", sl "B"] [exD1, exD2, exD3] {} =
      .error "Participant IDs and source directories must be of the same length" := by
  exact ⟨rfl, rfl⟩

/-- C2: supplying a fully custom `regex_dict` (here a single entity `foo`)
does not replace the default entity set: `add_bids_info` adds exactly the
default columns `session, run, data_type, echo` and no `foo` column,
because its loop iterates `BIDS_ENTITY_REGEX_DICT` instead of the caller's
mapping. -/
theorem claim_C2_custom_dict_ignored :
    ∃ df, add_bids_info searchLit exBidsDf (some [(sl "foo", sl "xx", 0)]) = .ok df
      ∧ df.colNames = [sl "filepath", sl "session", sl "run", sl "data_type", sl "echo"]
      ∧ sl "foo" ∉ df.colNames := by
  refine ⟨_, rfl, by decide, by decide⟩

/-- C4: in case-insensitive mode only the candidate file name is lowercased,
not the predicate strings; an upper-case suffix predicate `.NII` therefore
matches nothing (against the function's own docstring), while the same
query with the predicate pre-lowercased matches both files. -/
theorem claim_C4_predicates_not_lowered :
    find_files [sl "r"] exTreeCase
        { fileSuffixes := some [sl ".NII"], case_sensitive := false } = []
    ∧ find_files [sl "r"] exTreeCase
        { fileSuffixes := some [sl ".nii"], case_sensitive := false } =
      [sl "r/sub-01/a.nii", sl "r/sub-01/A.NII"] := by
  exact ⟨rfl, rfl⟩

/-- C3 counterexample: for the three-row table (S1,"01"), (S1,"02"),
(S1,"01") the Timepoint Deriver assigns t = [0, 1, 1]: the first and third
rows share the identical (subject, session_label) pair yet receive
different timepoints, because the forward fill runs over the original
(unsorted) row order. -/
theorem claim_C3_counterexample :
    ∃ ts, get_timepoint [⟨sl "S1", sl "01"⟩, ⟨sl "S1", sl "02"⟩, ⟨sl "S1", sl "01"⟩] = some ts
      ∧ tkey (([⟨sl "S1", sl "01"⟩, ⟨sl "S1", sl "02"⟩, ⟨sl "S1", sl "01"⟩] : List TRow).getD 0 ⟨[], []⟩)
        = tkey (([⟨sl "S1", sl "01"⟩, ⟨sl "S1", sl "02"⟩, ⟨sl "S1", sl "01"⟩] : List TRow).getD 2 ⟨[], []⟩)
      ∧ ts.getD 0 99 ≠ ts.getD 2 99 := by
  refine ⟨[0, 1, 1], by decide, by decide, by decide⟩

/-- C5 counterexample: with the upper-case suffix predicate `.NII`,
case-sensitive matching over the lowercased inputs accepts `r/a.nii`, but
case-insensitive matching over the originals returns nothing — the claimed
superset relation fails (outputs compared through lowercasing). -/
theorem claim_C5_counterexample :
    sl "r/a.nii" ∈ find_files (List.map strLower [sl "r"]) (lowerTree exTreeC5)
        { fileSuffixes := some [strLower (sl ".NII")], case_sensitive := true }
    ∧ sl "r/a.nii" ∉ (find_files [sl "r"] exTreeC5
        { fileSuffixes := some [sl ".NII"], case_sensitive := false }).map strLower := by
  decide

/-- C6 counterexample: `exclude_dirs` prunes directory names only; a FILE
named like an excluded directory is returned, so the returned path
`r/data` does contain the excluded element `data` as a path segment. -/
theorem claim_C6_counterexample :
    find_files [sl "r"] exTreeC6 { exclude_dirs := some (.list [sl "data"]) } = [sl "r/data"]
    ∧ sl "data" ∈ pathSegments (sl "r/data") := by
  decide

mutual
/-- Every below-root directory component of a walked entry passed the
pruning predicate at its level. -/
theorem walkTree_keepDir (ex : Option ExcludeDirs) (t : FSTree) :
    ∀ e ∈ walkTree ex t, ∀ d ∈ e.1, keepDir ex d = true := by
  match t with
  | .node dirs files =>
    intro e he d hd
    rw [walkTree] at he
    rcases List.mem_append.1 he with h | h
    · obtain ⟨f, _, rfl⟩ := List.mem_map.1 h
      simp at hd
    · exact walkDirs_keepDir ex dirs e h d hd
/-- Companion of `walkTree_keepDir` for the subdirectory recursion. -/
theorem walkDirs_keepDir (ex : Option ExcludeDirs) (l : List (Str × FSTree)) :
    ∀ e ∈ walkDirs ex l, ∀ d ∈ e.1, keepDir ex d = true := by
  match l with
  | [] =>
    intro e he
    rw [walkDirs] at he
    cases he
  | (d0, t0) :: rest =>
    intro e he d hd
    rw [walkDirs] at he
    rcases List.mem_append.1 he with h | h
    · by_cases hk : keepDir ex d0 = true
      · rw [if_pos hk] at h
        obtain ⟨e', he', rfl⟩ := List.mem_map.1 h
        rcases List.mem_cons.1 hd with rfl | hd'
        · exact hk
        · exact walkTree_keepDir ex t0 e' he' d hd'
      · rw [if_neg hk] at h
        cases h
    · exact walkDirs_keepDir ex rest e h d hd
end

/-- When the guard chain accepts, the produced path is the given filepath. -/
theorem fileKeepC_eq_some (spec : FindSpec) (fp cand : Str) (p : Str)
    (h : fileKeepC spec fp cand = some p) : p = fp := by
  unfold fileKeepC at h
  split at h
  · exact Option.noConfusion h
  split at h
  · exact Option.noConfusion h
  split at h
  · exact Option.noConfusion h
  split at h
  · exact Option.noConfusion h
  exact (Option.some.inj h).symm

/-- When the per-file filter accepts, the produced path is the join of the
directory components and the file name. -/
theorem fileKeep_eq_some (spec : FindSpec) (fd : List Str) (f : Str) (p : Str)
    (h : fileKeep spec fd f = some p) : p = joinPath (fd ++ [f]) :=
  fileKeepC_eq_some spec _ _ p h

/-- Every path returned by `find_files` decomposes as root components,
below-root directory components that all passed the pruning predicate, and
a file name. -/
theorem find_files_mem_decomp (root : List Str) (t : FSTree) (spec : FindSpec) (p : Str)
    (hp : p ∈ find_files root t spec) :
    ∃ below f, p = joinPath (root ++ below ++ [f])
      ∧ ∀ d ∈ below, keepDir spec.exclude_dirs d = true := by
  unfold find_files at hp
  obtain ⟨e, he, hk⟩ := List.mem_filterMap.1 hp
  exact ⟨e.1, e.2, fileKeep_eq_some _ _ _ _ hk,
    fun d hd => walkTree_keepDir _ t e he d hd⟩

/-- A directory name that survives list-mode pruning is not in the exclude
list (vacuously so when the list is empty and the filter is skipped). -/
theorem keepDir_list_not_mem (E : List Str) (d : Str)
    (h : keepDir (some (.list E)) d = true) : d ∉ E := by
  intro hmem
  cases E with
  | nil => cases hmem
  | cons a as =>
    simp only [keepDir, excludeTruthy, dirExcluded, List.isEmpty_cons,
      Bool.not_false, if_true, Bool.not_eq_true'] at h
    rw [List.contains_eq_any_beq] at h
    simp only [List.any_eq_false, beq_iff_eq] at h
    exact h d hmem rfl

/-- A directory name that survives string-mode pruning is not a substring
of the exclude string (when that string is non-empty, hence truthy). -/
theorem keepDir_str_not_sub (s : Str) (hs : s ≠ []) (d : Str)
    (h : keepDir (some (.str s)) d = true) : isSubOf d s = false := by
  cases s with
  | nil => exact absurd rfl hs
  | cons a as =>
    simp only [keepDir, excludeTruthy, dirExcluded, List.isEmpty_cons,
      Bool.not_false, if_true, Bool.not_eq_true'] at h
    exact h

/-- C6 (amended): for every root, tree and exclude list E, every path
returned by `find_files` splits into the root components, below-root
directory components none of which is in E, and a file name — excluded
directories are pruned before recursion, so nothing below them (nested
exclusions included) is ever returned.  (The original claim fails for file
names and for root components equal to an excluded name, see the
counterexample.) -/
theorem claim_C6_amended (root : List Str) (t : FSTree) (E : List Str) (spec : FindSpec)
    (hex : spec.exclude_dirs = some (.list E)) (p : Str) (hp : p ∈ find_files root t spec) :
    ∃ below f, p = joinPath (root ++ below ++ [f]) ∧ ∀ d ∈ below, d ∉ E := by
  obtain ⟨below, f, hpe, hk⟩ := find_files_mem_decomp root t spec p hp
  refine ⟨below, f, hpe, fun d hd => ?_⟩
  have h1 := hk d hd
  rw [hex] at h1
  exact keepDir_list_not_mem E d h1

/-- Witness for C6 (amended) at a concrete tree: the only returned path is
`r/keep/x.nii` and its below-root component avoids the exclude list. -/
theorem claim_C6_amended_witness :
    ∃ below f, sl "r/keep/x.nii" = joinPath ([sl "r"] ++ below ++ [f])
      ∧ ∀ d ∈ below, d ∉ [sl "skip"] :=
  claim_C6_amended [sl "r"] exTreeC6w [sl "skip"]
    { exclude_dirs := some (.list [sl "skip"]) } rfl (sl "r/keep/x.nii") (by decide)

/-- C9: when `exclude_dirs` is passed as a single string `s`, pruning uses
Python string membership, i.e. substring containment: every below-root
directory component of a returned path is NOT a contiguous substring of
`s` — equivalently, every directory whose name is a substring of `s`
(not merely equal to it) is pruned. -/
theorem claim_C9_substring_pruning (s : Str) (hs : s ≠ []) (root : List Str) (t : FSTree)
    (spec : FindSpec) (hex : spec.exclude_dirs = some (.str s)) (p : Str)
    (hp : p ∈ find_files root t spec) :
    ∃ below f, p = joinPath (root ++ below ++ [f]) ∧ ∀ d ∈ below, isSubOf d s = false := by
  obtain ⟨below, f, hpe, hk⟩ := find_files_mem_decomp root t spec p hp
  refine ⟨below, f, hpe, fun d hd => ?_⟩
  have h1 := hk d hd
  rw [hex] at h1
  exact keepDir_str_not_sub s hs d h1

/-- Witness for C9 at a concrete tree: with `exclude_dirs = "abc"` the kept
path `r/zz/x.nii` decomposes with below-root components that are not
substrings of `"abc"`; the directory `b`, a strict substring (not equal to
`"abc"`), was pruned — only one path is returned at all. -/
theorem claim_C9_substring_pruning_witness :
    (∃ below f, sl "r/zz/x.nii" = joinPath ([sl "r"] ++ below ++ [f])
      ∧ ∀ d ∈ below, isSubOf d (sl "abc") = false)
    ∧ find_files [sl "r"] exTreeC9 { exclude_dirs := some (.str (sl "abc")) }
      = [sl "r/zz/x.nii"] :=
  ⟨claim_C9_substring_pruning (sl "abc") (by decide) [sl "r"] exTreeC9
      { exclude_dirs := some (.str (sl "abc")) } rfl (sl "r/zz/x.nii") (by decide),
    by decide⟩

/-- Bridge between the boolean `contains` used by the models and list
membership. -/
theorem containsStr_eq_false_iff (l : List Str) (a : Str) : l.contains a = false ↔ a ∉ l := by
  rw [← Bool.not_eq_true, List.contains_eq_any_beq]
  simp [List.any_eq_true]

/-- C7: whenever some placeholder of the directory or filename recipe is
not a column of the table, `get_bids_structure` fails with the
missing-column error (pandas `KeyError`, the spec's `MissingColumnError`)
naming an absent placeholder — no partial path is rendered. -/
theorem claim_C7_missing_column (df : Frame) (rd rf : List Str) (dst : Str)
    (h : ∃ e ∈ extract_entities rd ++ extract_entities rf, e ∉ df.cols) :
    ∃ c, get_bids_structure df rd rf dst = .error (.missingColumn c)
      ∧ c ∈ extract_entities rd ++ extract_entities rf ∧ c ∉ df.cols := by
  rcases hfd : (extract_entities rd).find? (fun e => !df.cols.contains e) with _ | e
  · have hall := List.find?_eq_none.1 hfd
    obtain ⟨e0, he0, hne⟩ := h
    rcases List.mem_append.1 he0 with hin | hin
    · have := hall e0 hin
      simp only [Bool.not_eq_true', containsStr_eq_false_iff] at this
      exact absurd hne (by simp [this])
    · rcases hff : (extract_entities rf).find? (fun e => !df.cols.contains e) with _ | e
      · have := List.find?_eq_none.1 hff e0 hin
        simp only [Bool.not_eq_true', containsStr_eq_false_iff] at this
        exact absurd hne (by simp [this])
      · refine ⟨e, ?_, ?_, ?_⟩
        · simp only [get_bids_structure]
          rw [hfd, hff]
        · exact List.mem_append.2 (Or.inr (List.mem_of_find?_eq_some hff))
        · have := List.find?_some hff
          simpa only [Bool.not_eq_true', containsStr_eq_false_iff] using this
  · refine ⟨e, ?_, ?_, ?_⟩
    · simp only [get_bids_structure]
      rw [hfd]
    · exact List.mem_append.2 (Or.inl (List.mem_of_find?_eq_some hfd))
    · have := List.find?_some hfd
      simpa only [Bool.not_eq_true', containsStr_eq_false_iff] using this

/-- Witness for C7 (Scenario D): the template `{dst}/sub-{id}` +
`sub-{id}_task-{task}{ext}` applied to a table without a `task` column
fails with the missing-column error. -/
theorem claim_C7_missing_column_witness :
    ∃ c, get_bids_structure exFrameD [sl "{dst}", sl "sub-{id}"]
        [sl "sub-{id}", sl "task-{task}{ext}"] (sl "D") = .error (.missingColumn c)
      ∧ c ∈ extract_entities [sl "{dst}", sl "sub-{id}"]
          ++ extract_entities [sl "sub-{id}", sl "task-{task}{ext}"]
      ∧ c ∉ exFrameD.cols :=
  claim_C7_missing_column exFrameD [sl "{dst}", sl "sub-{id}"]
    [sl "sub-{id}", sl "task-{task}{ext}"] (sl "D") ⟨sl "task", by decide, by decide⟩

/-- C8: for every path and pattern (over any behaviour of the external `re`
engine), a miss — `re.search` returning no match — makes `regex_extract`
return the absent-value marker `np.nan` through the `.ok` (non-raising)
path; consequently applying it down a filepath column on which the pattern
never matches yields a full-length all-`nan` column and never aborts. -/
theorem claim_C8_extraction_miss (search : Str → Str → Option MatchRes)
    (pattern : Str) (re_group : Nat) :
    (∀ filepath, search pattern filepath = none →
      regex_extract search filepath pattern re_group = .ok Value.nan)
    ∧ ∀ files : List Str, (∀ f ∈ files, search pattern f = none) →
        files.mapM (fun f => regex_extract search f pattern re_group)
          = .ok (files.map (fun _ => Value.nan)) := by
  have hone : ∀ filepath, search pattern filepath = none →
      regex_extract search filepath pattern re_group = .ok Value.nan := by
    intro fp h
    unfold regex_extract
    rw [h]
  refine ⟨hone, ?_⟩
  intro files hall
  induction files with
  | nil => rfl
  | cons f rest ih =>
    rw [List.mapM_cons, hone f (hall f (List.mem_cons_self f rest)),
      ih (fun g hg => hall g (List.mem_cons_of_mem f hg))]
    rfl

/-- Witness for C8: the literal engine finds no `_ses-` in `sub-01_T1w.nii`,
so extraction yields `nan` for the row and the one-row column is all-`nan`. -/
theorem claim_C8_extraction_miss_witness :
    (∀ filepath, searchLit (sl "_ses-") filepath = none →
      regex_extract searchLit filepath (sl "_ses-") 2 = .ok Value.nan)
    ∧ ∀ files : List Str, (∀ f ∈ files, searchLit (sl "_ses-") f = none) →
        files.mapM (fun f => regex_extract searchLit f (sl "_ses-") 2)
          = .ok (files.map (fun _ => Value.nan)) :=
  claim_C8_extraction_miss searchLit (sl "_ses-") 2

/-- C10: on every input list whose file names carry at least one extension
(the function's documented precondition — two extensions), `uncompress_files`
completes, builds the accumulated list of uncompressed targets (one per
input file), yet its Python return value is `None`: the bare `return`
discards `filepath_list_uncompressed`. -/
theorem claim_C10_returns_none (pathExists : Str → Bool) (fps : List Str)
    (dst : Option Str) (h : ∀ f ∈ fps, suffixesOf f ≠ []) :
    ∃ out, uncompress_files pathExists fps dst = .ok out
      ∧ out.ret = none ∧ out.collected.length = fps.length := by
  suffices hgo : ∀ (fs : List Str), (∀ f ∈ fs, suffixesOf f ≠ []) →
      ∀ collected actions, ∃ out,
        uncompressGo pathExists dst fs collected actions = .ok out
          ∧ out.ret = none ∧ out.collected.length = collected.length + fs.length by
    obtain ⟨out, h1, h2, h3⟩ := hgo fps h [] []
    exact ⟨out, h1, h2, by simpa using h3⟩
  intro fs
  induction fs with
  | nil =>
    intro _ collected actions
    exact ⟨_, rfl, rfl, by simp [uncompressGo]⟩
  | cons f rest ih =>
    intro hh collected actions
    rcases hs : (suffixesOf f).head? with _ | ext0
    · exact absurd (List.head?_eq_none_iff.1 hs) (hh f (List.mem_cons_self f rest))
    · rw [uncompressGo, hs]
      obtain ⟨out, h1, h2, h3⟩ := ih (fun g hg => hh g (List.mem_cons_of_mem f hg))
        (collected ++ [uncompressTarget dst f ext0])
        (if !(pathExists (uncompressTarget dst f ext0))
          then actions ++ [(f, uncompressTarget dst f ext0)] else actions)
      refine ⟨out, h1, h2, ?_⟩
      rw [h3]
      simp only [List.length_append, List.length_cons, List.length_nil]
      omega

/-- Witness for C10: two well-formed compressed files are processed, the
accumulated list has both targets, and the returned value is still `None`. -/
theorem claim_C10_returns_none_witness :
    ∃ out, uncompress_files (fun _ => false) [sl "d/a.nii.gz", sl "d/b.nii.gz"] none = .ok out
      ∧ out.ret = none ∧ out.collected.length = 2 :=
  claim_C10_returns_none (fun _ => false) [sl "d/a.nii.gz", sl "d/b.nii.gz"] none (by decide)

/-- Mapping a function over an interspersed list intersperses the mapped
separator. -/
theorem map_intersperse (f : Str → Str) (sep : Str) :
    ∀ l : List Str, (l.intersperse sep).map f = (l.map f).intersperse (f sep)
  | [] => rfl
  | [a] => rfl
  | a :: b :: t => by
    show (a :: sep :: (b :: t).intersperse sep).map f
      = ((a :: b :: t).map f).intersperse (f sep)
    simp only [List.map_cons]
    rw [map_intersperse f sep (b :: t)]
    rfl

/-- Lowercasing commutes with joining path components (the separator is
case-invariant). -/
theorem strLower_joinPath (comps : List Str) :
    strLower (joinPath comps) = joinPath (comps.map strLower) := by
  unfold joinPath
  show (((comps.intersperse (sl "/")).flatten).map Char.toLower)
    = ((comps.map strLower).intersperse (sl "/")).flatten
  rw [List.map_flatten]
  have h1 : (comps.intersperse (sl "/")).map strLower
      = (comps.map strLower).intersperse (strLower (sl "/")) := map_intersperse strLower (sl "/") comps
  have h2 : strLower (sl "/") = sl "/" := by decide
  rw [h2] at h1
  calc (List.map (List.map Char.toLower) (comps.intersperse (sl "/"))).flatten
      = ((comps.intersperse (sl "/")).map strLower).flatten := rfl
    _ = ((comps.map strLower).intersperse (sl "/")).flatten := by rw [h1]

mutual
/-- Walking the lowercased tree (no pruning) yields the lowercased entries
of walking the original tree. -/
theorem walkTree_lower (t : FSTree) :
    walkTree none (lowerTree t) = (walkTree none t).map (fun e => (e.1.map strLower, strLower e.2)) := by
  match t with
  | .node dirs files =>
    rw [lowerTree, walkTree, walkTree, walkDirs_lower dirs]
    simp only [List.map_append, List.map_map]
    rfl
/-- Companion of `walkTree_lower` for the subdirectory recursion. -/
theorem walkDirs_lower (l : List (Str × FSTree)) :
    walkDirs none (lowerDirs l) = (walkDirs none l).map (fun e => (e.1.map strLower, strLower e.2)) := by
  match l with
  | [] => rfl
  | (d, t) :: rest =>
    rw [lowerDirs, walkDirs, walkDirs, walkTree_lower t, walkDirs_lower rest]
    simp only [keepDir, if_true]
    simp only [List.map_append, List.map_map]
    rfl
end

/-- With suffix/prefix filters only, acceptance of a candidate by the guard
chain is independent of the filepath argument and of the case-sensitivity
flag: accepting in one configuration accepts (its own filepath) in the
other. -/
theorem fileKeepC_mirror (sufs pres : Option (List Str)) (fp1 fp2 cand p : Str)
    (h : fileKeepC { fileSuffixes := sufs, filePrefixes := pres, case_sensitive := true }
      fp1 cand = some p) :
    fileKeepC { fileSuffixes := sufs, filePrefixes := pres, case_sensitive := false }
      fp2 cand = some fp2 := by
  unfold fileKeepC at h ⊢
  by_cases h1 : (optTruthy sufs && !((sufs.getD []).any fun s => List.isSuffixOf s cand)) = true
  · rw [if_pos h1] at h
    exact Option.noConfusion h
  · rw [if_neg h1] at h ⊢
    by_cases h2 : (optTruthy pres && !((pres.getD []).any fun s => List.isPrefixOf s cand)) = true
    · rw [if_pos h2] at h
      exact Option.noConfusion h
    · rw [if_neg h2]
      simp [optTruthy]

/-- C5 (amended): when the suffix/prefix predicate strings are already
lowercase (the restriction the counterexample forces), every path found by
case-sensitive matching over the lowercased inputs — lowercased tree, root
and predicates — is also found by case-insensitive matching over the
originals, up to the output lowercasing that relates the two runs: the
case-insensitive result is a superset. -/
theorem claim_C5_amended (root : List Str) (t : FSTree) (sufs pres : Option (List Str))
    (hs : ∀ x ∈ sufs.getD [], strLower x = x) (hp : ∀ x ∈ pres.getD [], strLower x = x)
    (p : Str)
    (hmem : p ∈ find_files (root.map strLower) (lowerTree t)
      { fileSuffixes := sufs.map (fun l => l.map strLower)
      , filePrefixes := pres.map (fun l => l.map strLower)
      , case_sensitive := true }) :
    p ∈ (find_files root t
      { fileSuffixes := sufs, filePrefixes := pres, case_sensitive := false }).map strLower := by
  have hsu : sufs.map (fun l => l.map strLower) = sufs := by
    cases sufs with
    | none => rfl
    | some l =>
      simp only [Option.map_some']
      congr 1
      calc l.map strLower = l.map id := List.map_congr_left (by simpa using hs)
        _ = l := List.map_id l
  have hpr : pres.map (fun l => l.map strLower) = pres := by
    cases pres with
    | none => rfl
    | some l =>
      simp only [Option.map_some']
      congr 1
      calc l.map strLower = l.map id := List.map_congr_left (by simpa using hp)
        _ = l := List.map_id l
  rw [hsu, hpr] at hmem
  unfold find_files at hmem ⊢
  rw [show ({ fileSuffixes := sufs, filePrefixes := pres, case_sensitive := true } : FindSpec).exclude_dirs = none from rfl] at hmem
  rw [show ({ fileSuffixes := sufs, filePrefixes := pres, case_sensitive := false } : FindSpec).exclude_dirs = none from rfl]
  rw [walkTree_lower t, List.filterMap_map] at hmem
  obtain ⟨e, he, hk⟩ := List.mem_filterMap.1 hmem
  have hk' : fileKeepC { fileSuffixes := sufs, filePrefixes := pres, case_sensitive := true }
      (joinPath ((root.map strLower ++ e.1.map strLower) ++ [strLower e.2]))
      (strLower e.2) = some p := hk
  have hci : fileKeepC { fileSuffixes := sufs, filePrefixes := pres, case_sensitive := false }
      (joinPath ((root ++ e.1) ++ [e.2])) (strLower e.2)
      = some (joinPath ((root ++ e.1) ++ [e.2])) :=
    fileKeepC_mirror sufs pres _ _ _ p hk'
  have hpe : p = joinPath ((root.map strLower ++ e.1.map strLower) ++ [strLower e.2]) :=
    fileKeepC_eq_some _ _ _ _ hk'
  have hplow : p = strLower (joinPath ((root ++ e.1) ++ [e.2])) := by
    rw [strLower_joinPath, hpe]
    simp [List.map_append]
  rw [hplow]
  exact List.mem_map_of_mem strLower (List.mem_filterMap.2 ⟨e, he, hci⟩)

/-- Witness for C5 (amended): with the lowercase suffix predicate `.nii`,
the path `r/sub-01/a.nii` found case-sensitively over the lowercased tree
is also found (up to lowercasing) case-insensitively over the original. -/
theorem claim_C5_amended_witness :
    sl "r/sub-01/a.nii" ∈ (find_files [sl "r"] exTreeCase
      { fileSuffixes := some [sl ".nii"], filePrefixes := none, case_sensitive := false }).map strLower :=
  claim_C5_amended [sl "r"] exTreeCase (some [sl ".nii"]) none
    (by decide) (by decide) (sl "r/sub-01/a.nii") (by decide)

/-- Reflexivity of the lexicographic comparison. -/
theorem strLeB_refl : ∀ a : Str, strLeB a a = true
  | [] => rfl
  | c :: t => by
    unfold strLeB
    rw [if_neg (lt_irrefl c), if_neg (lt_irrefl c)]
    exact strLeB_refl t

/-- Totality of the lexicographic comparison. -/
theorem strLeB_total : ∀ a b : Str, strLeB a b = true ∨ strLeB b a = true
  | [], _ => Or.inl rfl
  | _ :: _, [] => Or.inr rfl
  | c :: t, d :: u => by
    rcases lt_trichotomy c d with h | h | h
    · left
      unfold strLeB
      rw [if_pos h]
    · subst h
      unfold strLeB
      rw [if_neg (lt_irrefl c), if_neg (lt_irrefl c), if_neg (lt_irrefl c), if_neg (lt_irrefl c)]
      exact strLeB_total t u
    · right
      unfold strLeB
      rw [if_pos h]

/-- Antisymmetry of the lexicographic comparison. -/
theorem strLeB_antisymm : ∀ a b : Str, strLeB a b = true → strLeB b a = true → a = b
  | [], [], _, _ => rfl
  | [], _ :: _, _, h2 => by cases h2
  | _ :: _, [], h1, _ => by cases h1
  | c :: t, d :: u, h1, h2 => by
    rcases lt_trichotomy c d with h | h | h
    · exfalso
      unfold strLeB at h2
      rw [if_neg (asymm h), if_pos h] at h2
      cases h2
    · subst h
      unfold strLeB at h1 h2
      rw [if_neg (lt_irrefl c), if_neg (lt_irrefl c)] at h1 h2
      rw [strLeB_antisymm t u h1 h2]
    · exfalso
      unfold strLeB at h1
      rw [if_neg (asymm h), if_pos h] at h1
      cases h1

/-- Transitivity of the lexicographic comparison. -/
theorem strLeB_trans : ∀ a b c : Str, strLeB a b = true → strLeB b c = true → strLeB a c = true
  | [], _, _, _, _ => rfl
  | _ :: _, [], _, h1, _ => by cases h1
  | _ :: _, _ :: _, [], _, h2 => by cases h2
  | x :: t, y :: u, z :: v, h1, h2 => by
    unfold strLeB at h1 h2 ⊢
    by_cases hxy : x < y
    · by_cases hyz : y < z
      · rw [if_pos (lt_trans hxy hyz)]
      · by_cases hzy : z < y
        · rw [if_neg hyz, if_pos hzy] at h2
          cases h2
        · have hyz' : y = z := le_antisymm (not_lt.1 hzy) (not_lt.1 hyz)
          subst hyz'
          rw [if_pos hxy]
    · by_cases hyx : y < x
      · rw [if_neg hxy, if_pos hyx] at h1
        cases h1
      · have hxy' : x = y := le_antisymm (not_lt.1 hyx) (not_lt.1 hxy)
        subst hxy'
        by_cases hyz : x < z
        · rw [if_pos hyz]
        · by_cases hzy : z < x
          · rw [if_neg hyz, if_pos hzy] at h2
            cases h2
          · rw [if_neg hyz, if_neg hzy] at h2 ⊢
            rw [if_neg hxy, if_neg hxy] at h1
            exact strLeB_trans t u v h1 h2

/-- Irreflexivity of the strict comparison. -/
theorem strLtB_irrefl (a : Str) : strLtB a a = false := by
  unfold strLtB
  simp

/-- Strict comparison implies non-strict. -/
theorem strLtB_le (a b : Str) (h : strLtB a b = true) : strLeB a b = true := by
  unfold strLtB at h
  rw [Bool.and_eq_true] at h
  exact h.1

/-- Strict comparison implies inequality. -/
theorem strLtB_ne (a b : Str) (h : strLtB a b = true) : a ≠ b := by
  unfold strLtB at h
  rw [Bool.and_eq_true] at h
  simpa using h.2

/-- Non-strict and unequal give strict. -/
theorem strLtB_of_le_ne (a b : Str) (hle : strLeB a b = true) (hne : a ≠ b) :
    strLtB a b = true := by
  unfold strLtB
  simp [hle, hne]

/-- Strict-then-le transitivity. -/
theorem strLtB_trans_le (a b c : Str) (h1 : strLtB a b = true) (h2 : strLeB b c = true) :
    strLtB a c = true := by
  have hle := strLeB_trans a b c (strLtB_le a b h1) h2
  refine strLtB_of_le_ne a c hle ?_
  rintro rfl
  exact strLtB_ne a b h1 (strLeB_antisymm a b (strLtB_le a b h1) h2)

/-- Reflexivity of the key comparison. -/
theorem keyLe_refl (k : Str × Str) : keyLe k k = true := by
  unfold keyLe
  rw [strLtB_irrefl]
  simp [strLeB_refl]

/-- With equal participant ids, the key comparison is the session
comparison. -/
theorem keyLe_same_pid (a b : Str × Str) (hp : a.1 = b.1) (h : keyLe a b = true) :
    strLeB a.2 b.2 = true := by
  unfold keyLe at h
  rw [Bool.or_eq_true] at h
  rcases h with h | h
  · rw [hp, strLtB_irrefl] at h
    cases h
  · rw [Bool.and_eq_true] at h
    exact h.2

/-- Antisymmetry of the key comparison. -/
theorem keyLe_antisymm (a b : Str × Str) (h1 : keyLe a b = true) (h2 : keyLe b a = true) :
    a = b := by
  unfold keyLe at h1 h2
  rw [Bool.or_eq_true] at h1 h2
  rcases h1 with h1 | h1
  · rcases h2 with h2 | h2
    · have := strLtB_trans_le a.1 b.1 a.1 h1 (strLtB_le _ _ h2)
      rw [strLtB_irrefl] at this
      cases this
    · rw [Bool.and_eq_true] at h2
      have hba : b.1 = a.1 := by simpa using h2.1
      rw [hba, strLtB_irrefl] at h1
      cases h1
  · rw [Bool.and_eq_true] at h1
    have hab : a.1 = b.1 := by simpa using h1.1
    rcases h2 with h2 | h2
    · rw [hab, strLtB_irrefl] at h2
      cases h2
    · rw [Bool.and_eq_true] at h2
      exact Prod.ext hab (strLeB_antisymm a.2 b.2 h1.2 h2.2)

/-- Deduplication splits along an append. -/
theorem dropDupFirst_append : ∀ (a b : List (Nat × TRow)) (seen : List (Str × Str)),
    dropDupFirst (a ++ b) seen = dropDupFirst a seen ++ dropDupFirst b (seenAcc a seen)
  | [], b, seen => rfl
  | x :: xs, b, seen => by
    simp only [List.cons_append, List.append_eq, dropDupFirst, seenAcc]
    by_cases h : tkey x.2 ∈ seen
    · rw [if_pos h, if_pos h, if_pos h, dropDupFirst_append xs b seen]
    · rw [if_neg h, if_neg h, if_neg h, dropDupFirst_append xs b _]
      rfl

/-- Cumulative counting splits along an append. -/
theorem cumc_append : ∀ (a b : List (Nat × TRow)) (cnt : Str → Nat),
    cumc (a ++ b) cnt = cumc a cnt ++ cumc b (cntAcc a cnt)
  | [], b, cnt => rfl
  | (i, r) :: xs, b, cnt => by
    simp only [List.cons_append, List.append_eq, cumc, cntAcc]
    rw [cumc_append xs b _]

/-- Membership in the accumulated seen-set. -/
theorem seenAcc_mem : ∀ (a : List (Nat × TRow)) (seen : List (Str × Str)) (k : Str × Str),
    k ∈ seenAcc a seen ↔ k ∈ seen ∨ k ∈ a.map (fun e => tkey e.2)
  | [], seen, k => by simp [seenAcc]
  | x :: xs, seen, k => by
    unfold seenAcc
    by_cases h : tkey x.2 ∈ seen
    · rw [if_pos h, seenAcc_mem xs seen k]
      simp only [List.map_cons, List.mem_cons]
      constructor
      · rintro (hk | hk)
        · exact Or.inl hk
        · exact Or.inr (Or.inr hk)
      · rintro (hk | hk | hk)
        · exact Or.inl hk
        · exact Or.inl (hk ▸ h)
        · exact Or.inr hk
    · rw [if_neg h, seenAcc_mem xs _ k]
      simp only [List.mem_cons, List.map_cons]
      tauto

/-- Deduplication only keeps entries of the input. -/
theorem dropDupFirst_subset : ∀ (x : List (Nat × TRow)) (seen : List (Str × Str))
    (e : Nat × TRow), e ∈ dropDupFirst x seen → e ∈ x
  | [], _, _, h => by cases h
  | a :: xs, seen, e, h => by
    unfold dropDupFirst at h
    by_cases hk : tkey a.2 ∈ seen
    · rw [if_pos hk] at h
      exact List.mem_cons_of_mem a (dropDupFirst_subset xs seen e h)
    · rw [if_neg hk] at h
      rcases List.mem_cons.1 h with rfl | h'
      · exact List.mem_cons_self _ _
      · exact List.mem_cons_of_mem _ (dropDupFirst_subset xs _ e h')

/-- Indices of counted entries come from the counted list. -/
theorem cumc_fst_mem : ∀ (d : List (Nat × TRow)) (cnt : Str → Nat) (e : Nat × Nat),
    e ∈ cumc d cnt → e.1 ∈ d.map (·.1)
  | [], _, _, h => by cases h
  | (i, r) :: rest, cnt, e, h => by
    unfold cumc at h
    rcases List.mem_cons.1 h with rfl | h'
    · simp
    · simp only [List.map_cons, List.mem_cons]
      exact Or.inr (cumc_fst_mem rest _ e h')

/-- Lookup misses when no entry has the index. -/
theorem lookupT_none : ∀ (c : List (Nat × Nat)) (j : Nat),
    (∀ e ∈ c, e.1 ≠ j) → lookupT c j = none
  | [], _, _ => rfl
  | (i, t) :: rest, j, h => by
    unfold lookupT
    rw [if_neg (fun hji => h (i, t) (List.mem_cons_self _ _) (by simpa using hji.symm))]
    exact lookupT_none rest j (fun e he => h e (List.mem_cons_of_mem _ he))

/-- Lookup skips a block of entries with other indices. -/
theorem lookupT_append : ∀ (c1 c2 : List (Nat × Nat)) (j : Nat),
    (∀ e ∈ c1, e.1 ≠ j) → lookupT (c1 ++ c2) j = lookupT c2 j
  | [], _, _, _ => rfl
  | (i, t) :: rest, c2, j, h => by
    show (if j = i then some t else lookupT (rest ++ c2) j) = lookupT c2 j
    rw [if_neg (fun hji => h (i, t) (List.mem_cons_self _ _) (by simpa using hji.symm))]
    exact lookupT_append rest c2 j (fun e he => h e (List.mem_cons_of_mem _ he))

/-- The accumulated counter counts the processed entries per participant. -/
theorem cntAcc_count : ∀ (d : List (Nat × TRow)) (cnt : Str → Nat) (p : Str),
    cntAcc d cnt p = cnt p + (d.filter (fun e => e.2.pid == p)).length
  | [], cnt, p => by simp [cntAcc]
  | (i, r) :: rest, cnt, p => by
    unfold cntAcc
    rw [cntAcc_count rest _ p]
    by_cases h : r.pid = p
    · subst h
      simp [List.filter_cons]
      omega
    · have hb : (r.pid == p) = false := by simpa using h
      have hcond : ¬ (p = r.pid) := fun hp => h hp.symm
      simp [List.filter_cons, hb, if_neg hcond]

/-- Keys kept by deduplication: exactly the input keys not already seen. -/
theorem dropDupFirst_keys_mem : ∀ (x : List (Nat × TRow)) (seen : List (Str × Str))
    (k : Str × Str),
    k ∈ (dropDupFirst x seen).map (fun e => tkey e.2) ↔
      k ∈ x.map (fun e => tkey e.2) ∧ k ∉ seen
  | [], seen, k => by simp [dropDupFirst]
  | a :: xs, seen, k => by
    unfold dropDupFirst
    by_cases h : tkey a.2 ∈ seen
    · rw [if_pos h, dropDupFirst_keys_mem xs seen k]
      simp only [List.map_cons, List.mem_cons]
      constructor
      · rintro ⟨hk, hns⟩
        exact ⟨Or.inr hk, hns⟩
      · rintro ⟨hk | hk, hns⟩
        · exact absurd (hk ▸ h) hns
        · exact ⟨hk, hns⟩
    · rw [if_neg h]
      simp only [List.map_cons, List.mem_cons, dropDupFirst_keys_mem xs _ k]
      constructor
      · rintro (rfl | ⟨hk, hns⟩)
        · exact ⟨Or.inl rfl, h⟩
        · push_neg at hns
          exact ⟨Or.inr hk, hns.2⟩
      · rintro ⟨hk | hk, hns⟩
        · exact Or.inl hk
        · by_cases hke : k = tkey a.2
          · exact Or.inl hke
          · refine Or.inr ⟨hk, ?_⟩
            push_neg
            exact ⟨hke, hns⟩

/-- Keys kept by deduplication are pairwise distinct. -/
theorem dropDupFirst_keys_nodup : ∀ (x : List (Nat × TRow)) (seen : List (Str × Str)),
    ((dropDupFirst x seen).map (fun e => tkey e.2)).Nodup
  | [], seen => by simp [dropDupFirst]
  | a :: xs, seen => by
    unfold dropDupFirst
    by_cases h : tkey a.2 ∈ seen
    · rw [if_pos h]
      exact dropDupFirst_keys_nodup xs seen
    · rw [if_neg h]
      simp only [List.map_cons, List.nodup_cons]
      refine ⟨fun hmem => ?_, dropDupFirst_keys_nodup xs _⟩
      have := (dropDupFirst_keys_mem xs _ (tkey a.2)).1 hmem
      exact this.2 (List.mem_cons_self _ _)

/-- Index bounds of the counted, deduplicated entries of an enumerated
block. -/
theorem cumc_dropDup_enum_idx (xs : List TRow) (n : Nat) (seen : List (Str × Str))
    (cnt : Str → Nat) :
    ∀ e ∈ cumc (dropDupFirst (List.enumFrom n xs) seen) cnt,
      n ≤ e.1 ∧ e.1 < n + xs.length := by
  intro e he
  have hidx := cumc_fst_mem _ _ e he
  obtain ⟨⟨ix, rx⟩, hx, hfst⟩ := List.mem_map.1 hidx
  have hx2 := dropDupFirst_subset _ _ _ hx
  have hb := List.mem_enumFrom hx2
  have : ix = e.1 := hfst
  omega

/-- Keys of an enumerated block are the keys of the block. -/
theorem enumFrom_keys (xs : List TRow) (n : Nat) :
    (List.enumFrom n xs).map (fun e => tkey e.2) = xs.map tkey := by
  have h1 : (List.enumFrom n xs).map (fun e => tkey e.2)
      = ((List.enumFrom n xs).map Prod.snd).map tkey := by
    rw [List.map_map]
    rfl
  rw [h1, List.enumFrom_map_snd]

/-- Value the index-aligned counted series assigns at the position of the
first row after a processed prefix: `none` when the row's key already
occurred (its sorted-first occurrence was kept earlier), otherwise the
number of already-kept entries sharing its participant id. -/
theorem assign_at (pre rest : List TRow) (r : TRow) :
    lookupT (cumc (dropDupFirst (pre ++ r :: rest).enum []) (fun _ => 0)) pre.length
      = if tkey r ∈ pre.map tkey then none
        else some ((dropDupFirst (List.enumFrom 0 pre) []).filter
            (fun e => e.2.pid == r.pid)).length := by
  have henum : (pre ++ r :: rest).enum
      = List.enumFrom 0 pre ++ ((pre.length, r) :: List.enumFrom (pre.length + 1) rest) := by
    show List.enumFrom 0 (pre ++ r :: rest) = _
    rw [List.enumFrom_append]
    simp [List.enumFrom]
  have hseen : ∀ k, k ∈ seenAcc (List.enumFrom 0 pre) [] ↔ k ∈ pre.map tkey := by
    intro k
    rw [seenAcc_mem, enumFrom_keys]
    simp
  rw [henum, dropDupFirst_append]
  by_cases hdup : tkey r ∈ pre.map tkey
  · rw [if_pos hdup]
    have hmem : tkey r ∈ seenAcc (List.enumFrom 0 pre) [] := (hseen _).2 hdup
    rw [show dropDupFirst ((pre.length, r) :: List.enumFrom (pre.length + 1) rest)
          (seenAcc (List.enumFrom 0 pre) [])
        = dropDupFirst (List.enumFrom (pre.length + 1) rest)
          (seenAcc (List.enumFrom 0 pre) []) from by
      rw [dropDupFirst, if_pos hmem]]
    rw [cumc_append]
    apply lookupT_none
    intro e he
    rcases List.mem_append.1 he with he | he
    · have := cumc_dropDup_enum_idx pre 0 [] _ e he
      omega
    · have := cumc_dropDup_enum_idx rest (pre.length + 1) _ _ e he
      omega
  · rw [if_neg hdup]
    have hnot : tkey r ∉ seenAcc (List.enumFrom 0 pre) [] := fun hk => hdup ((hseen _).1 hk)
    rw [show dropDupFirst ((pre.length, r) :: List.enumFrom (pre.length + 1) rest)
          (seenAcc (List.enumFrom 0 pre) [])
        = (pre.length, r) :: dropDupFirst (List.enumFrom (pre.length + 1) rest)
          (tkey r :: seenAcc (List.enumFrom 0 pre) []) from by
      rw [dropDupFirst, if_neg hnot]]
    rw [cumc_append]
    rw [lookupT_append _ _ _ (fun e he => by
      have := cumc_dropDup_enum_idx pre 0 [] _ e he
      omega)]
    show lookupT ((pre.length,
        cntAcc (dropDupFirst (List.enumFrom 0 pre) []) (fun _ => 0) r.pid) :: _) pre.length = _
    unfold lookupT
    rw [if_pos rfl, cntAcc_count]
    simp

/-- The closed-form timepoint depends only on the row's key. -/
theorem priorCount_congr (l : List TRow) (a b : TRow) (h : tkey a = tkey b) :
    priorCount l a = priorCount l b := by
  unfold priorCount
  have h1 : a.pid = b.pid := congrArg Prod.fst h
  have h2 : a.sess = b.sess := congrArg Prod.snd h
  rw [h1, h2]

/-- In a sorted table, when the next row's key already occurred in the
prefix, the prefix's last row has the same key. -/
theorem lastT_dup (pre rest : List TRow) (r : TRow)
    (hsort : List.Pairwise rowle (pre ++ r :: rest))
    (hdup : tkey r ∈ pre.map tkey) :
    (pre.getLast?).map (fun x => priorCount (pre ++ r :: rest) x)
      = some (priorCount (pre ++ r :: rest) r) := by
  have hne : pre ≠ [] := by
    rintro rfl
    simp at hdup
  obtain ⟨x, hx, hxk⟩ := List.mem_map.1 hdup
  have hps := List.pairwise_append.1 hsort
  have hxr : ∀ y ∈ pre, rowle y r := fun y hy => hps.2.2 y hy r (List.mem_cons_self _ _)
  have hlast : pre.getLast? = some (pre.getLast hne) := List.getLast?_eq_getLast pre hne
  have hpmem : pre.getLast hne ∈ pre := List.getLast_mem hne
  have hdecomp : pre.dropLast ++ [pre.getLast hne] = pre := List.dropLast_append_getLast hne
  have hxp : rowle x (pre.getLast hne) := by
    have hpw2 : List.Pairwise rowle (pre.dropLast ++ [pre.getLast hne]) := by
      rw [hdecomp]
      exact hps.1
    have hx' : x ∈ pre.dropLast ++ [pre.getLast hne] := by
      rw [hdecomp]
      exact hx
    rcases List.mem_append.1 hx' with hx'' | hx''
    · exact (List.pairwise_append.1 hpw2).2.2 x hx'' _ (List.mem_singleton.2 rfl)
    · have hxe : x = pre.getLast hne := by simpa using hx''
      rw [hxe]
      exact keyLe_refl _
  have h1 : keyLe (tkey r) (tkey (pre.getLast hne)) = true := by
    rw [← hxk]
    exact hxp
  have h2 : keyLe (tkey (pre.getLast hne)) (tkey r) = true := hxr _ hpmem
  have hkey : tkey (pre.getLast hne) = tkey r := keyLe_antisymm _ _ h2 h1
  rw [hlast]
  simp [priorCount_congr _ _ _ hkey]

/-- In a sorted table, when the next row's key is new, the number of kept
(first-occurrence) prefix entries with its participant id equals the
closed-form timepoint of the row over the whole table. -/
theorem count_new (pre rest : List TRow) (r : TRow)
    (hsort : List.Pairwise rowle (pre ++ r :: rest))
    (hnew : tkey r ∉ pre.map tkey) :
    ((dropDupFirst (List.enumFrom 0 pre) []).filter (fun e => e.2.pid == r.pid)).length
      = priorCount (pre ++ r :: rest) r := by
  classical
  have hps := List.pairwise_append.1 hsort
  have hpre_r : ∀ y ∈ pre, rowle y r := fun y hy => hps.2.2 y hy r (List.mem_cons_self _ _)
  have hr_rest : ∀ y ∈ rest, rowle r y := (List.pairwise_cons.1 hps.2.1).1
  set D := dropDupFirst (List.enumFrom 0 pre) [] with hD
  set K := D.map (fun e => tkey e.2) with hK
  have hKnodup : K.Nodup := dropDupFirst_keys_nodup _ _
  have hKmem : ∀ k, k ∈ K ↔ k ∈ pre.map tkey := by
    intro k
    rw [hK, dropDupFirst_keys_mem, enumFrom_keys]
    simp
  -- step A: move the filter through the key map
  have hA : (D.filter (fun e => e.2.pid == r.pid)).length
      = (K.filter (fun k => k.1 == r.pid)).length := by
    rw [← List.countP_eq_length_filter, ← List.countP_eq_length_filter, hK, List.countP_map]
    rfl
  -- step B/C: both sides as finset cards
  have hB : (K.filter (fun k => k.1 == r.pid)).length
      = (K.filter (fun k => k.1 == r.pid)).toFinset.card := by
    rw [List.card_toFinset, List.Nodup.dedup (hKnodup.filter _)]
  have hC : priorCount (pre ++ r :: rest) r
      = (((pre ++ r :: rest).map tkey).filter
          (fun k => k.1 == r.pid && strLtB k.2 r.sess)).toFinset.card := by
    rw [List.card_toFinset]
    rfl
  rw [hA, hB, hC]
  congr 1
  apply Finset.ext
  intro k
  rw [List.mem_toFinset, List.mem_toFinset, List.mem_filter, List.mem_filter, hKmem k]
  constructor
  · rintro ⟨hkp, hkq⟩
    have hkpid : k.1 = r.pid := by simpa using hkq
    obtain ⟨x, hx, hxk⟩ := List.mem_map.1 hkp
    have hle : strLeB k.2 r.sess = true := by
      have hxr : keyLe (tkey x) (tkey r) = true := hpre_r x hx
      rw [hxk] at hxr
      exact keyLe_same_pid _ _ (by simpa using hkpid) hxr
    have hne : k.2 ≠ r.sess := by
      intro he
      apply hnew
      have : k = tkey r := Prod.ext (by simpa using hkpid) (by simpa using he)
      rw [← this]
      exact hkp
    refine ⟨?_, ?_⟩
    · rw [List.map_append]
      exact List.mem_append.2 (Or.inl hkp)
    · rw [Bool.and_eq_true]
      exact ⟨hkq, strLtB_of_le_ne _ _ hle hne⟩
  · rintro ⟨hkl, hkq⟩
    rw [Bool.and_eq_true] at hkq
    have hkpid : k.1 = r.pid := by simpa using hkq.1
    have hklt : strLtB k.2 r.sess = true := hkq.2
    rw [List.map_append, List.mem_append] at hkl
    rcases hkl with hkl | hkl
    · exact ⟨hkl, hkq.1⟩
    · rw [List.map_cons, List.mem_cons] at hkl
      rcases hkl with rfl | hkl
      · rw [show (tkey r).2 = r.sess from rfl, strLtB_irrefl] at hklt
        cases hklt
      · exfalso
        obtain ⟨y, hy, hyk⟩ := List.mem_map.1 hkl
        have hry : keyLe (tkey r) (tkey y) = true := hr_rest y hy
        rw [hyk] at hry
        have hsle : strLeB r.sess k.2 = true :=
          keyLe_same_pid _ _ (by simpa using hkpid.symm) hry
        have := strLtB_trans_le _ _ _ hklt hsle
        rw [strLtB_irrefl] at this
        cases this

/-- Forward fill over a sorted table: positions after a processed prefix
receive exactly the closed-form timepoints of the remaining rows. -/
theorem ffill_sorted (l : List TRow) (hsort : List.Pairwise rowle l) :
    ∀ (suf pre : List TRow), l = pre ++ suf →
      ffillGo (lookupT (cumc (dropDupFirst l.enum []) (fun _ => 0))) suf.length pre.length
        ((pre.getLast?).map (fun x => priorCount l x))
      = suf.map (fun x => some (priorCount l x))
  | [], pre, hl => rfl
  | r :: rest, pre, hl => by
    subst hl
    rw [show (r :: rest).length = rest.length + 1 from rfl, ffillGo]
    have hassign := assign_at pre rest r
    have hv : (match lookupT (cumc (dropDupFirst (pre ++ r :: rest).enum []) (fun _ => 0))
          pre.length with
        | some t => some t
        | none => (pre.getLast?).map (fun x => priorCount (pre ++ r :: rest) x))
        = some (priorCount (pre ++ r :: rest) r) := by
      rw [hassign]
      by_cases hdup : tkey r ∈ pre.map tkey
      · rw [if_pos hdup]
        exact lastT_dup pre rest r hsort hdup
      · rw [if_neg hdup]
        rw [count_new pre rest r hsort hdup]
    rw [hv, List.map_cons]
    congr 1
    have hrec := ffill_sorted (pre ++ r :: rest) hsort rest (pre ++ [r])
      (by rw [List.append_cons])
    rw [List.getLast?_concat, List.length_append] at hrec
    simpa using hrec

/-- Closed form of the Timepoint Deriver on a sorted table: it succeeds and
assigns each row the number of distinct smaller same-participant session
keys. -/
theorem get_timepoint_sorted (l : List TRow) (h : List.Sorted rowle l) :
    get_timepoint l = some (l.map (fun r => priorCount l r)) := by
  unfold get_timepoint
  dsimp only
  have hsorted_enum : List.Sorted erowle l.enum := by
    have h2 : List.Pairwise rowle (l.enum.map Prod.snd) := by
      rw [List.enum_map_snd]
      exact h
    exact (@List.pairwise_map (Nat × TRow) TRow Prod.snd rowle l.enum).mp h2
  rw [List.Sorted.insertionSort_eq hsorted_enum]
  have hff := ffill_sorted l h l [] rfl
  simp only [List.getLast?, Option.map_none', List.length_nil] at hff
  rw [hff]
  rw [if_pos (by simp)]
  simp [List.map_map]

/-- Monotonicity of the closed-form timepoint in the session label. -/
theorem priorCount_mono (l : List TRow) (a b : TRow) (hpid : a.pid = b.pid)
    (hsess : strLeB a.sess b.sess = true) :
    priorCount l a ≤ priorCount l b := by
  classical
  unfold priorCount
  rw [← List.card_toFinset, ← List.card_toFinset]
  apply Finset.card_le_card
  intro k hk
  rw [List.mem_toFinset, List.mem_filter] at hk
  rw [List.mem_toFinset, List.mem_filter]
  rcases hk with ⟨hkm, hkp⟩
  rw [Bool.and_eq_true] at hkp
  refine ⟨hkm, ?_⟩
  rw [Bool.and_eq_true]
  constructor
  · rw [← hpid]
    exact hkp.1
  · exact strLtB_trans_le _ _ _ hkp.2 hsess

/-- C3 (amended): for every table whose rows are already sorted by
(participant_id, session_label) — the restriction the counterexample
forces, since the forward fill runs over the original row order — the
Timepoint Deriver succeeds and the assigned timepoints satisfy the claim's
invariant: rows with identical (subject, session_label) receive equal
timepoints, and within a subject timepoints are non-decreasing along the
session-sorted rows. -/
theorem claim_C3_amended (l : List TRow) (h : List.Sorted rowle l) :
    ∃ ts, get_timepoint l = some ts ∧ ts.length = l.length
      ∧ (∀ i j, i < l.length → j < l.length →
          tkey (l.getD i ⟨[], []⟩) = tkey (l.getD j ⟨[], []⟩) →
          ts.getD i 0 = ts.getD j 0)
      ∧ (∀ i j, i ≤ j → j < l.length →
          (l.getD i ⟨[], []⟩).pid = (l.getD j ⟨[], []⟩).pid →
          ts.getD i 0 ≤ ts.getD j 0) := by
  refine ⟨l.map (fun r => priorCount l r), get_timepoint_sorted l h, by simp, ?_, ?_⟩
  all_goals
    have hget : ∀ i, i < l.length →
        (l.map (fun r => priorCount l r)).getD i 0 = priorCount l (l.getD i ⟨[], []⟩) := by
      intro i hi
      rw [List.getD_eq_getElem?_getD, List.getD_eq_getElem?_getD, List.getElem?_map,
        List.getElem?_eq_getElem hi]
      rfl
  · intro i j hi hj hkey
    rw [hget i hi, hget j hj]
    exact priorCount_congr _ _ _ hkey
  · intro i j hij hj hpid
    have hi : i < l.length := Nat.lt_of_le_of_lt hij hj
    rw [hget i hi, hget j hj]
    rcases Nat.eq_or_lt_of_le hij with rfl | hlt
    · exact le_refl _
    · have hgd : ∀ (m : Nat) (hm : m < l.length), l.getD m ⟨[], []⟩ = l[m] := by
        intro m hm
        rw [List.getD_eq_getElem?_getD, List.getElem?_eq_getElem hm]
        rfl
      have hrel : rowle (l.getD i ⟨[], []⟩) (l.getD j ⟨[], []⟩) := by
        rw [hgd i hi, hgd j hj]
        exact List.pairwise_iff_getElem.1 h i j hi hj hlt
      have hsess : strLeB (l.getD i ⟨[], []⟩).sess (l.getD j ⟨[], []⟩).sess = true :=
        keyLe_same_pid _ _ (by simpa using hpid) hrel
      exact priorCount_mono l _ _ hpid hsess

/-- Witness for C3 (amended) at a concrete sorted table with a duplicate
(S1,"01") pair and a second subject. -/
theorem claim_C3_amended_witness :
    ∃ ts, get_timepoint [⟨sl "S1", sl "01"⟩, ⟨sl "S1", sl "01"⟩, ⟨sl "S1", sl "02"⟩,
        ⟨sl "S2", sl "01"⟩] = some ts
      ∧ ts.length = ([⟨sl "S1", sl "01"⟩, ⟨sl "S1", sl "01"⟩, ⟨sl "S1", sl "02"⟩,
          ⟨sl "S2", sl "01"⟩] : List TRow).length
      ∧ (∀ i j, i < ([⟨sl "S1", sl "01"⟩, ⟨sl "S1", sl "01"⟩, ⟨sl "S1", sl "02"⟩,
            ⟨sl "S2", sl "01"⟩] : List TRow).length →
          j < ([⟨sl "S1", sl "01"⟩, ⟨sl "S1", sl "01"⟩, ⟨sl "S1", sl "02"⟩,
            ⟨sl "S2", sl "01"⟩] : List TRow).length →
          tkey (([⟨sl "S1", sl "01"⟩, ⟨sl "S1", sl "01"⟩, ⟨sl "S1", sl "02"⟩,
            ⟨sl "S2", sl "01"⟩] : List TRow).getD i ⟨[], []⟩)
            = tkey (([⟨sl "S1", sl "01"⟩, ⟨sl "S1", sl "01"⟩, ⟨sl "S1", sl "02"⟩,
            ⟨sl "S2", sl "01"⟩] : List TRow).getD j ⟨[], []⟩) →
          ts.getD i 0 = ts.getD j 0)
      ∧ (∀ i j, i ≤ j → j < ([⟨sl "S1", sl "01"⟩, ⟨sl "S1", sl "01"⟩, ⟨sl "S1", sl "02"⟩,
            ⟨sl "S2", sl "01"⟩] : List TRow).length →
          (([⟨sl "S1", sl "01"⟩, ⟨sl "S1", sl "01"⟩, ⟨sl "S1", sl "02"⟩,
            ⟨sl "S2", sl "01"⟩] : List TRow).getD i ⟨[], []⟩).pid
            = (([⟨sl "S1", sl "01"⟩, ⟨sl "S1", sl "01"⟩, ⟨sl "S1", sl "02"⟩,
            ⟨sl "S2", sl "01"⟩] : List TRow).getD j ⟨[], []⟩).pid →
          ts.getD i 0 ≤ ts.getD j 0) :=
  claim_C3_amended [⟨sl "S1", sl "01"⟩, ⟨sl "S1", sl "01"⟩, ⟨sl "S1", sl "02"⟩,
    ⟨sl "S2", sl "01"⟩] (by decide)
